import Mathlib

/-!
Verification development for the playlist-sync reconciler
(src/playlist-sync.py).  The Python source is shallowly embedded below:
the File record and its comparison methods, the mode test used for the
delete dispatch, the reconciliation loop of main, the byte quoting
routine of the adb transport, and the transcode-aware record
construction of main.  Paths are modelled as Lean strings (posix text,
compared code point by code point exactly as Python compares str
values), times as integers, and modes as naturals.
-/

namespace PlaylistSync

/-- The File record of the source (fields relpath, mtime, mode, srcpath).
Remote records carry srcpath none. -/
structure File where
  relpath : String
  mtime : Int
  mode : Nat
  srcpath : Option String
  deriving DecidableEq, Repr

/-- The Python str comparison: code point lexicographic order.  It is
stated on the char lists of the strings so that concrete comparisons
compute; it is equivalent to the order of the String instance, see
strLt_iff_lt. -/
def strLt (a b : String) : Prop :=
  a.data < b.data

instance (a b : String) : Decidable (strLt a b) := by
  unfold strLt; infer_instance

/-- File.__lt__ of the source:
relpath < other.relpath or (relpath equal and mtime < other.mtime + 60). -/
def File.lt (a b : File) : Prop :=
  strLt a.relpath b.relpath ∨ (a.relpath = b.relpath ∧ a.mtime < b.mtime + 60)

instance (a b : File) : Decidable (File.lt a b) := by
  unfold File.lt; infer_instance

/-- File.__eq__ of the source:
relpath equal and the absolute time difference below 60 seconds. -/
def File.eq (a b : File) : Prop :=
  a.relpath = b.relpath ∧ |a.mtime - b.mtime| < 60

instance (a b : File) : Decidable (File.eq a b) := by
  unfold File.eq; infer_instance

/-- The greater-than comparison that functools.total_ordering derives from
the lt and eq of the class: a > b iff not (a < b) and not (a == b). -/
def File.gt (a b : File) : Prop :=
  ¬ File.lt a b ∧ ¬ File.eq a b

instance (a b : File) : Decidable (File.gt a b) := by
  unfold File.gt; infer_instance

/-- stat.S_ISDIR: the file type bits (mask 0o170000) equal 0o040000. -/
def S_ISDIR (mode : Nat) : Bool :=
  mode &&& 0o170000 == 0o040000

/-- The remote operations issued by the sync loop: fs.rmdir and fs.unlink
are delete with the directory dispatch flag of stat.S_ISDIR, fs.copy is
copy of the popped local record. -/
inductive Op where
  | delete (relpath : String) (isDir : Bool)
  | copy (f : File)
  deriving DecidableEq, Repr

/-- The sync loop of main (lines 324 to 349), on the two stacks with the
top element first (main sorts both lists ascending and pops from the
back, so the stack here is the sorted list reversed).  The three branches
are in source order: delete when the local stack is empty or the top
local path sorts before the top remote path; copy or update when
force_update is set, the remote stack is empty, or the top local record
compares greater (the update case also pops the remote top); otherwise
pop both with no operation. -/
def syncLoop (force : Bool) : List File → List File → List Op
  | [], [] => []
  | [], rt :: r =>
      Op.delete rt.relpath (S_ISDIR rt.mode) :: syncLoop force [] r
  | lt :: l, [] =>
      Op.copy lt :: syncLoop force l []
  | lt :: l, rt :: r =>
      if strLt lt.relpath rt.relpath then
        Op.delete rt.relpath (S_ISDIR rt.mode) :: syncLoop force (lt :: l) r
      else if force ∨ File.gt lt rt then
        if lt.relpath ≠ rt.relpath then
          Op.copy lt :: syncLoop force l (rt :: r)
        else
          Op.copy lt :: syncLoop force l r
      else
        syncLoop force l r
termination_by l r => l.length + r.length

/-- The reconciler on the sorted ascending listings, as main runs it:
both lists are consumed from the greatest element backward. -/
def reconcile (force : Bool) (loc rem : List File) : List Op :=
  syncLoop force loc.reverse rem.reverse

/-- The simulated remote listing left by the sync loop, computed on the
same stacks by the same branch structure: a delete removes the remote
entry, a copy or update leaves an entry carrying the name, time and mode
of the copied local record (fs.copy preserves the modification time:
shutil.copy2 on the local transport, os.utime after a transcode, adb
push on the shell transport), a no-op keeps the remote entry. -/
def runRemote (force : Bool) : List File → List File → List File
  | [], [] => []
  | [], _ :: r => runRemote force [] r
  | lt :: l, [] => ⟨lt.relpath, lt.mtime, lt.mode, none⟩ :: runRemote force l []
  | lt :: l, rt :: r =>
      if strLt lt.relpath rt.relpath then
        runRemote force (lt :: l) r
      else if force ∨ File.gt lt rt then
        if lt.relpath ≠ rt.relpath then
          ⟨lt.relpath, lt.mtime, lt.mode, none⟩ :: runRemote force l (rt :: r)
        else
          ⟨lt.relpath, lt.mtime, lt.mode, none⟩ :: runRemote force l r
      else
        rt :: runRemote force l r
termination_by l r => l.length + r.length

/-- The simulated remote listing after a reconciler run on ascending
listings, ascending again, as a fresh listdir call would return it. -/
def finalRemote (force : Bool) (loc rem : List File) : List File :=
  (runRemote force loc.reverse rem.reverse).reverse

/-- The number of iterations the sync loop performs: one per branch
taken, with the branch structure of syncLoop. -/
def syncIters (force : Bool) : List File → List File → Nat
  | [], [] => 0
  | [], _ :: r => syncIters force [] r + 1
  | _ :: l, [] => syncIters force l [] + 1
  | lt :: l, rt :: r =>
      if strLt lt.relpath rt.relpath then
        syncIters force (lt :: l) r + 1
      else if force ∨ File.gt lt rt then
        (if lt.relpath ≠ rt.relpath then
          syncIters force l (rt :: r)
        else
          syncIters force l r) + 1
      else
        syncIters force l r + 1
termination_by l r => l.length + r.length

/-- Loop iterations of the reconciler on the ascending listings. -/
def reconcileIters (force : Bool) (loc rem : List File) : Nat :=
  syncIters force loc.reverse rem.reverse

/-- The set of relative paths named by a listing. -/
def pathSet (l : List File) : Finset String :=
  (l.map File.relpath).toFinset

/-- One remote operation applied to the simulated remote path set: a
delete removes the path, a copy makes the path present. -/
def applyOp (s : Finset String) : Op → Finset String
  | Op.delete p _ => s.erase p
  | Op.copy f => insert f.relpath s

/-- A sequence of remote operations applied in order. -/
def applyOps (s : Finset String) (ops : List Op) : Finset String :=
  ops.foldl applyOp s

/-- Ordering fact between two emitted operations: whenever both are
deletes, the later one names a strictly smaller path. -/
def DelBefore (a b : Op) : Prop :=
  ∀ p q bp bq, a = Op.delete p bp → b = Op.delete q bq → strLt q p

/-- bytes.replace with a single byte needle, as used by QuoteArgument:
every occurrence of the needle byte is replaced by the replacement
sequence, every other byte is kept. -/
def bytesReplace1 (needle : Nat) (repl : List Nat) : List Nat → List Nat
  | [] => []
  | b :: s => (if b = needle then repl else [b]) ++ bytesReplace1 needle repl s

/-- AdbRemote.QuoteArgument (lines 175 to 185): replace backslash (92) by
a doubled backslash, then escape double quote (34), dollar (36) and
backtick (96) with a preceding backslash, then wrap the result in double
quotes.  The innermost call is the first replace performed. -/
def QuoteArgument (arg : List Nat) : List Nat :=
  34 :: (bytesReplace1 96 [92, 96] (bytesReplace1 36 [92, 36] (bytesReplace1 34 [92, 34]
      (bytesReplace1 92 [92, 92] arg))) ++ [34])

/-- Modelled from the claim text for comparison: escape exactly the four
bytes backslash, double quote, dollar and backtick with one preceding
backslash, keep any other byte unchanged. -/
def escByte (b : Nat) : List Nat :=
  if b = 92 ∨ b = 34 ∨ b = 36 ∨ b = 96 then [92, b] else [b]

/-- Modelled from the claim text: escByte applied to every byte in order. -/
def escapeAll : List Nat → List Nat
  | [] => []
  | b :: s => escByte b ++ escapeAll s

/-- Modelled from the claim text: the escaped body wrapped in double
quotes. -/
def quoteSpec (arg : List Nat) : List Nat :=
  34 :: (escapeAll arg ++ [34])

/-- The final component of a posix relative path, the pathlib name: the
text after the last slash, as a char list. -/
def pathName (p : String) : List Char :=
  (p.data.reverse.takeWhile (fun c => c ≠ '/')).reverse

/-- str.rfind for a single char, on a char list: the index of the last
occurrence, none when the char is absent. -/
def rfindIdx (c : Char) : List Char → Option Nat
  | [] => none
  | a :: as =>
    match rfindIdx c as with
    | some i => some (i + 1)
    | none => if a = c then some 0 else none

/-- PurePosixPath.suffix of CPython pathlib: the extension of the final
component, taken from the last dot; empty when the dot is absent,
leading, or trailing (the source condition 0 < i < len(name) - 1). -/
def pySuffix (p : String) : String :=
  let name := pathName p
  match rfindIdx '.' name with
  | some i => if 0 < i ∧ i + 1 < name.length then ⟨name.drop i⟩ else ""
  | none => ""

/-- PurePosixPath.with_suffix of CPython pathlib, on the normalized
relative paths this program builds (nonempty final component, valid new
suffix, so no error path): the old suffix of the final component is cut
off and the new suffix appended; the directory part is kept. -/
def pyWithSuffix (p : String) (suffix : String) : String :=
  let name := pathName p
  let old := (pySuffix p).data
  let newName :=
    (if old = [] then name else name.take (name.length - old.length)) ++ suffix.data
  ⟨p.data.take (p.data.length - name.length) ++ newName⟩

/-- The local record construction of main (lines 307 to 315): when
transcoding is on and the path suffix is in the lossless list (.flac),
the record name gets the target format suffix, otherwise it is the path
itself; the stat fields and the source path always refer to the original
file.  music_src.joinpath(path) is modelled as the slash join of the two
posix strings, and as_posix is the identity on this model. -/
def mkLocalFile (transcodeFiles : Bool) (transcodeFormat : String)
    (musicSrc : String) (path : String) (stMtime : Int) (stMode : Nat) : File :=
  let sortpath :=
    if transcodeFiles = true ∧ pySuffix path ∈ [".flac"] then
      pyWithSuffix path ("." ++ transcodeFormat)
    else
      path
  ⟨sortpath, stMtime, stMode, some (musicSrc ++ "/" ++ path)⟩

/-! Lemmas about the string order. -/

lemma strLt_iff_lt (a b : String) : strLt a b ↔ a < b :=
  Iff.symm String.lt_iff_toList_lt

lemma strLt_irrefl (a : String) : ¬ strLt a a :=
  fun h => lt_irrefl a ((strLt_iff_lt a a).mp h)

lemma ne_of_strLt {a b : String} (h : strLt a b) : a ≠ b := by
  intro he; subst he; exact strLt_irrefl a h

lemma strLt_trans {a b c : String} (h1 : strLt a b) (h2 : strLt b c) : strLt a c :=
  (strLt_iff_lt a c).mpr (lt_trans ((strLt_iff_lt a b).mp h1) ((strLt_iff_lt b c).mp h2))

lemma strLt_trichotomy (a b : String) : strLt a b ∨ a = b ∨ strLt b a := by
  rcases lt_trichotomy a b with h | h | h
  · exact Or.inl ((strLt_iff_lt a b).mpr h)
  · exact Or.inr (Or.inl h)
  · exact Or.inr (Or.inr ((strLt_iff_lt b a).mpr h))

lemma list_lt_append (l m : List Char) (h : m ≠ []) : l < l ++ m := by
  induction l with
  | nil =>
    cases m with
    | nil => exact absurd rfl h
    | cons c cs =>
      simp only [List.nil_append]
      exact List.Lex.nil
  | cons a as ih =>
    simp only [List.cons_append]
    exact List.Lex.cons ih

lemma strLt_append_ne (s t : String) (h : t.data ≠ []) : strLt s (s ++ t) := by
  unfold strLt
  rw [String.data_append]
  exact list_lt_append s.data t.data h

/-- A path is strictly below any of its descendants in the string
order. -/
lemma strLt_slash_append (D x : String) : strLt D (D ++ "/" ++ x) := by
  rw [String.append_assoc]
  refine strLt_append_ne D ("/" ++ x) ?_
  rw [String.data_append]
  simp [show ("/" : String).data = ['/'] from rfl]

/-! Lemmas about path sets and operation application. -/

lemma applyOps_nil (s : Finset String) : applyOps s [] = s := rfl

lemma applyOps_cons (s : Finset String) (op : Op) (ops : List Op) :
    applyOps s (op :: ops) = applyOps (applyOp s op) ops := rfl

lemma pathSet_nil : pathSet [] = ∅ := rfl

lemma pathSet_cons (f : File) (l : List File) :
    pathSet (f :: l) = insert f.relpath (pathSet l) := by
  simp [pathSet]

lemma mem_pathSet {x : String} {l : List File} :
    x ∈ pathSet l ↔ ∃ f ∈ l, f.relpath = x := by
  simp [pathSet]

lemma pathSet_reverse (l : List File) : pathSet l.reverse = pathSet l := by
  simp [pathSet]

lemma pathSet_tail_subset (f : File) (l : List File) : pathSet l ⊆ pathSet (f :: l) := by
  rw [pathSet_cons]; exact Finset.subset_insert _ _

/-! The convergence invariant: running the loop on stacks whose remote
part is strictly descending by path turns any simulated remote state
covering the remote paths into that state minus the remote paths plus
the local paths. -/

lemma syncLoop_pathSet (force : Bool) :
    ∀ n (L R : List File) (S : Finset String),
      L.length + R.length ≤ n →
      List.Pairwise (fun a b => strLt b.relpath a.relpath) R →
      pathSet R ⊆ S →
      applyOps S (syncLoop force L R) = (S \ pathSet R) ∪ pathSet L := by
  intro n
  induction n with
  | zero =>
    intro L R S hlen _ _
    have hL0 : L = [] := List.length_eq_zero.mp (by omega)
    have hR0 : R = [] := List.length_eq_zero.mp (by omega)
    subst hL0; subst hR0
    simp [syncLoop, applyOps_nil, pathSet_nil]
  | succ n ih =>
    intro L R S hlen hR hS
    rcases L with _ | ⟨lt, l⟩
    · rcases R with _ | ⟨rt, r⟩
      · simp [syncLoop, applyOps_nil, pathSet_nil]
      · have hhead := (List.pairwise_cons.mp hR).1
        have hR' := (List.pairwise_cons.mp hR).2
        have hsub : pathSet r ⊆ S.erase rt.relpath := by
          intro x hx
          rcases mem_pathSet.mp hx with ⟨f, hf, rfl⟩
          refine Finset.mem_erase.mpr ⟨ne_of_strLt (hhead f hf), ?_⟩
          exact hS (by rw [pathSet_cons]; exact Finset.mem_insert_of_mem hx)
        have h := ih [] r (S.erase rt.relpath) (by simp at hlen ⊢; omega) hR' hsub
        simp only [syncLoop, applyOps_cons, applyOp] at h ⊢
        rw [h]
        ext x
        simp only [pathSet_cons, pathSet_nil, Finset.mem_union, Finset.mem_sdiff,
          Finset.mem_erase, Finset.mem_insert, Finset.not_mem_empty, or_false]
        tauto
    · rcases R with _ | ⟨rt, r⟩
      · have h := ih l [] (insert lt.relpath S) (by simp at hlen ⊢; omega)
          List.Pairwise.nil (by rw [pathSet_nil]; exact Finset.empty_subset _)
        simp only [syncLoop, applyOps_cons, applyOp] at h ⊢
        rw [h]
        ext x
        simp only [pathSet_cons, pathSet_nil, Finset.mem_union, Finset.mem_sdiff,
          Finset.mem_insert, Finset.not_mem_empty, or_false, not_false_iff, and_true]
        tauto
      · have hhead := (List.pairwise_cons.mp hR).1
        have hR' := (List.pairwise_cons.mp hR).2
        by_cases hlt : strLt lt.relpath rt.relpath
        · -- delete branch: the remote top has no local counterpart
          have hsub : pathSet r ⊆ S.erase rt.relpath := by
            intro x hx
            rcases mem_pathSet.mp hx with ⟨f, hf, rfl⟩
            refine Finset.mem_erase.mpr ⟨ne_of_strLt (hhead f hf), ?_⟩
            exact hS (by rw [pathSet_cons]; exact Finset.mem_insert_of_mem hx)
          have h := ih (lt :: l) r (S.erase rt.relpath) (by simp at hlen ⊢; omega) hR' hsub
          simp only [syncLoop, applyOps_cons, applyOp, if_pos hlt] at h ⊢
          rw [h]
          ext x
          simp only [pathSet_cons, Finset.mem_union, Finset.mem_sdiff,
            Finset.mem_erase, Finset.mem_insert]
          tauto
        · by_cases hf : (force = true) ∨ File.gt lt rt
          · by_cases hne : lt.relpath ≠ rt.relpath
            · -- fresh copy branch: the local top has no remote counterpart
              have hgt : strLt rt.relpath lt.relpath := by
                rcases strLt_trichotomy lt.relpath rt.relpath with h | h | h
                · exact absurd h hlt
                · exact absurd h hne
                · exact h
              have hnotin : lt.relpath ∉ pathSet (rt :: r) := by
                intro hx
                rcases mem_pathSet.mp hx with ⟨f, hf', he⟩
                rcases List.mem_cons.mp hf' with hfr | hfr
                · exact hne (by rw [← he, hfr])
                · exact strLt_irrefl lt.relpath (strLt_trans (he ▸ hhead f hfr) hgt)
              have h := ih l (rt :: r) (insert lt.relpath S) (by simp at hlen ⊢; omega)
                hR (hS.trans (Finset.subset_insert _ _))
              simp only [syncLoop, applyOps_cons, applyOp, if_neg hlt, if_pos hf,
                if_pos hne] at h ⊢
              rw [h]
              ext x
              by_cases hx : x = lt.relpath
              · subst hx
                simp only [pathSet_cons, Finset.mem_union, Finset.mem_sdiff,
                  Finset.mem_insert] at hnotin ⊢
                tauto
              · simp only [pathSet_cons, Finset.mem_union, Finset.mem_sdiff,
                  Finset.mem_insert] at hnotin ⊢
                tauto
            · -- update branch: equal paths, the local record is copied
              push_neg at hne
              have hnotin : rt.relpath ∉ pathSet r := by
                intro hx
                rcases mem_pathSet.mp hx with ⟨f, hf', he⟩
                exact strLt_irrefl rt.relpath (he ▸ hhead f hf')
              have h := ih l r (insert lt.relpath S) (by simp at hlen ⊢; omega)
                hR' (((pathSet_tail_subset rt r).trans hS).trans (Finset.subset_insert _ _))
              simp only [syncLoop, applyOps_cons, applyOp, if_neg hlt, if_pos hf,
                if_neg (by simp [hne] : ¬ lt.relpath ≠ rt.relpath)] at h ⊢
              rw [h]
              ext x
              by_cases hx : x = rt.relpath
              · subst hx
                simp only [pathSet_cons, Finset.mem_union, Finset.mem_sdiff,
                  Finset.mem_insert, hne] at hnotin ⊢
                tauto
              · simp only [pathSet_cons, Finset.mem_union, Finset.mem_sdiff,
                  Finset.mem_insert, hne] at hnotin ⊢
                tauto
          · -- no-op branch: equal paths, remote not older, pop both
            have heq : lt.relpath = rt.relpath := by
              rcases not_or.mp hf with ⟨_, hgt⟩
              rcases not_and_or.mp hgt with h | h
              · rcases not_not.mp h with h' | ⟨he, _⟩
                · exact absurd h' hlt
                · exact he
              · exact (not_not.mp h).1
            have hnotin : rt.relpath ∉ pathSet r := by
              intro hx
              rcases mem_pathSet.mp hx with ⟨f, hf', he⟩
              exact strLt_irrefl rt.relpath (he ▸ hhead f hf')
            have hin : rt.relpath ∈ S :=
              hS (by rw [pathSet_cons]; exact Finset.mem_insert_self _ _)
            have h := ih l r S (by simp at hlen ⊢; omega) hR'
              ((pathSet_tail_subset rt r).trans hS)
            simp only [syncLoop, if_neg hlt, if_neg hf] at h ⊢
            rw [h]
            ext x
            by_cases hx : x = rt.relpath
            · subst hx
              simp only [pathSet_cons, heq, Finset.mem_union, Finset.mem_sdiff,
                Finset.mem_insert] at hnotin ⊢
              tauto
            · simp only [pathSet_cons, heq, Finset.mem_union, Finset.mem_sdiff,
                Finset.mem_insert] at hnotin ⊢
              tauto

/-- The iteration count is bounded by the combined stack length: every
branch pops at least one element. -/
lemma syncIters_le (force : Bool) :
    ∀ n (L R : List File), L.length + R.length ≤ n →
      syncIters force L R ≤ L.length + R.length := by
  intro n
  induction n with
  | zero =>
    intro L R hlen
    have hL0 : L = [] := List.length_eq_zero.mp (by omega)
    have hR0 : R = [] := List.length_eq_zero.mp (by omega)
    subst hL0; subst hR0
    simp [syncIters]
  | succ n ih =>
    intro L R hlen
    rcases L with _ | ⟨lt, l⟩
    · rcases R with _ | ⟨rt, r⟩
      · simp [syncIters]
      · have h := ih [] r (by simp at hlen ⊢; omega)
        simp only [syncIters, List.length_cons, List.length_nil] at h ⊢
        omega
    · rcases R with _ | ⟨rt, r⟩
      · have h := ih l [] (by simp at hlen ⊢; omega)
        simp only [syncIters, List.length_cons, List.length_nil] at h ⊢
        omega
      · by_cases hlt : strLt lt.relpath rt.relpath
        · have h := ih (lt :: l) r (by simp at hlen ⊢; omega)
          simp only [syncIters, if_pos hlt, List.length_cons] at h ⊢
          omega
        · by_cases hf : (force = true) ∨ File.gt lt rt
          · by_cases hne : lt.relpath ≠ rt.relpath
            · have h := ih l (rt :: r) (by simp at hlen ⊢; omega)
              simp only [syncIters, if_neg hlt, if_pos hf, if_pos hne,
                List.length_cons] at h ⊢
              omega
            · have h := ih l r (by simp at hlen ⊢; omega)
              simp only [syncIters, if_neg hlt, if_pos hf, if_neg hne,
                List.length_cons] at h ⊢
              omega
          · have h := ih l r (by simp at hlen ⊢; omega)
            simp only [syncIters, if_neg hlt, if_neg hf, List.length_cons] at h ⊢
            omega

/-- With force off, the loop leaves every local record matched by a
simulated remote record with the same path and a time within the
one-sided tolerance, pairwise in order. -/
lemma runRemote_forall₂ :
    ∀ n (L R : List File), L.length + R.length ≤ n →
      List.Forall₂ (fun a b => a.relpath = b.relpath ∧ a.mtime < b.mtime + 60)
        L (runRemote false L R) := by
  intro n
  induction n with
  | zero =>
    intro L R hlen
    have hL0 : L = [] := List.length_eq_zero.mp (by omega)
    have hR0 : R = [] := List.length_eq_zero.mp (by omega)
    subst hL0; subst hR0
    simp only [runRemote]
    exact List.Forall₂.nil
  | succ n ih =>
    intro L R hlen
    rcases L with _ | ⟨lt, l⟩
    · rcases R with _ | ⟨rt, r⟩
      · simp only [runRemote]; exact List.Forall₂.nil
      · simp only [runRemote]
        exact ih [] r (by simp at hlen ⊢; omega)
    · rcases R with _ | ⟨rt, r⟩
      · simp only [runRemote]
        exact List.Forall₂.cons ⟨rfl, by show lt.mtime < lt.mtime + 60; omega⟩
          (ih l [] (by simp at hlen ⊢; omega))
      · by_cases hlt : strLt lt.relpath rt.relpath
        · simp only [runRemote, if_pos hlt]
          exact ih (lt :: l) r (by simp at hlen ⊢; omega)
        · by_cases hf : (false = true) ∨ File.gt lt rt
          · by_cases hne : lt.relpath ≠ rt.relpath
            · simp only [runRemote, if_neg hlt, if_pos hf, if_pos hne]
              exact List.Forall₂.cons ⟨rfl, by show lt.mtime < lt.mtime + 60; omega⟩
                (ih l (rt :: r) (by simp at hlen ⊢; omega))
            · simp only [runRemote, if_neg hlt, if_pos hf, if_neg hne]
              exact List.Forall₂.cons ⟨rfl, by show lt.mtime < lt.mtime + 60; omega⟩
                (ih l r (by simp at hlen ⊢; omega))
          · have hcmp : lt.relpath = rt.relpath ∧ lt.mtime < rt.mtime + 60 := by
              rcases not_or.mp hf with ⟨_, hgt⟩
              rcases not_and_or.mp hgt with h | h
              · rcases not_not.mp h with h' | ⟨he, hm⟩
                · exact absurd h' hlt
                · exact ⟨he, hm⟩
              · have he := not_not.mp h
                exact ⟨he.1, by have := abs_lt.mp he.2; omega⟩
            simp only [runRemote, if_neg hlt, if_neg hf]
            exact List.Forall₂.cons hcmp (ih l r (by simp at hlen ⊢; omega))

/-- A run with force off over a remote that matches the local stack
pairwise in path, with remote times inside the one-sided tolerance,
performs no operation. -/
lemma syncLoop_matched_noop (L R : List File)
    (h : List.Forall₂ (fun a b => a.relpath = b.relpath ∧ a.mtime < b.mtime + 60) L R) :
    syncLoop false L R = [] := by
  induction h with
  | nil => simp [syncLoop]
  | @cons a b l₁ l₂ hab htl ih =>
    have hnlt : ¬ strLt a.relpath b.relpath := by
      rw [hab.1]; exact strLt_irrefl _
    have hngt : ¬ ((false = true) ∨ File.gt a b) := by
      rintro (h | h)
      · exact absurd h (by simp)
      · exact h.1 (Or.inr ⟨hab.1, hab.2⟩)
    simp only [syncLoop, if_neg hnlt, if_neg hngt]
    exact ih

/-- A forced run over a pairwise matched remote emits exactly one copy
for each local stack entry, in stack order. -/
lemma syncLoop_matched_force (L R : List File)
    (h : List.Forall₂ (fun a b => a.relpath = b.relpath ∧ |a.mtime - b.mtime| < 60) L R) :
    syncLoop true L R = L.map Op.copy := by
  induction h with
  | nil => simp [syncLoop]
  | @cons a b l₁ l₂ hab htl ih =>
    have hnlt : ¬ strLt a.relpath b.relpath := by
      rw [hab.1]; exact strLt_irrefl _
    simp only [syncLoop, if_neg hnlt]
    simp [hab.1, ih]

/-- The simulated remote listing names exactly the local paths, in stack
order. -/
lemma runRemote_relpaths (force : Bool) :
    ∀ n (L R : List File), L.length + R.length ≤ n →
      (runRemote force L R).map File.relpath = L.map File.relpath := by
  intro n
  induction n with
  | zero =>
    intro L R hlen
    have hL0 : L = [] := List.length_eq_zero.mp (by omega)
    have hR0 : R = [] := List.length_eq_zero.mp (by omega)
    subst hL0; subst hR0
    simp [runRemote]
  | succ n ih =>
    intro L R hlen
    rcases L with _ | ⟨lt, l⟩
    · rcases R with _ | ⟨rt, r⟩
      · simp [runRemote]
      · simp only [runRemote]
        exact ih [] r (by simp at hlen ⊢; omega)
    · rcases R with _ | ⟨rt, r⟩
      · simp only [runRemote, List.map_cons]
        rw [ih l [] (by simp at hlen ⊢; omega)]
      · by_cases hlt : strLt lt.relpath rt.relpath
        · simp only [runRemote, if_pos hlt]
          exact ih (lt :: l) r (by simp at hlen ⊢; omega)
        · by_cases hf : (force = true) ∨ File.gt lt rt
          · by_cases hne : lt.relpath ≠ rt.relpath
            · simp only [runRemote, if_neg hlt, if_pos hf, if_pos hne, List.map_cons]
              rw [ih l (rt :: r) (by simp at hlen ⊢; omega)]
            · simp only [runRemote, if_neg hlt, if_pos hf, if_neg hne, List.map_cons]
              rw [ih l r (by simp at hlen ⊢; omega)]
          · have heq : lt.relpath = rt.relpath := by
              rcases not_or.mp hf with ⟨_, hgt⟩
              rcases not_and_or.mp hgt with h | h
              · rcases not_not.mp h with h' | ⟨he, _⟩
                · exact absurd h' hlt
                · exact he
              · exact (not_not.mp h).1
            simp only [runRemote, if_neg hlt, if_neg hf, List.map_cons]
            rw [ih l r (by simp at hlen ⊢; omega), heq]

/-- The two simulations agree: the listing left by runRemote names the
same path set that applying the emitted operations leaves. -/
lemma finalRemote_pathSet (force : Bool) (loc rem : List File) :
    pathSet (finalRemote force loc rem) = pathSet loc := by
  unfold finalRemote
  rw [pathSet_reverse]
  unfold pathSet
  rw [runRemote_relpaths force (loc.reverse.length + rem.reverse.length)
    loc.reverse rem.reverse le_rfl]
  simp

/-- Every delete the loop emits names the path of an entry of the
remote stack it started from. -/
lemma syncLoop_delete_mem (force : Bool) :
    ∀ n (L R : List File), L.length + R.length ≤ n →
      ∀ p b, Op.delete p b ∈ syncLoop force L R → ∃ e ∈ R, e.relpath = p := by
  intro n
  induction n with
  | zero =>
    intro L R hlen p b hmem
    have hL0 : L = [] := List.length_eq_zero.mp (by omega)
    have hR0 : R = [] := List.length_eq_zero.mp (by omega)
    subst hL0; subst hR0
    simp [syncLoop] at hmem
  | succ n ih =>
    intro L R hlen p b hmem
    rcases L with _ | ⟨lt, l⟩
    · rcases R with _ | ⟨rt, r⟩
      · simp [syncLoop] at hmem
      · simp only [syncLoop, List.mem_cons] at hmem
        rcases hmem with hmem | hmem
        · exact ⟨rt, List.mem_cons_self _ _, by injection hmem with h1 _; exact h1.symm⟩
        · rcases ih [] r (by simp at hlen ⊢; omega) p b hmem with ⟨e, he, hep⟩
          exact ⟨e, List.mem_cons_of_mem _ he, hep⟩
    · rcases R with _ | ⟨rt, r⟩
      · simp only [syncLoop, List.mem_cons] at hmem
        rcases hmem with hmem | hmem
        · exact absurd hmem (by simp)
        · rcases ih l [] (by simp at hlen ⊢; omega) p b hmem with ⟨e, he, _⟩
          exact absurd he (List.not_mem_nil e)
      · by_cases hlt : strLt lt.relpath rt.relpath
        · simp only [syncLoop, if_pos hlt, List.mem_cons] at hmem
          rcases hmem with hmem | hmem
          · exact ⟨rt, List.mem_cons_self _ _, by injection hmem with h1 _; exact h1.symm⟩
          · rcases ih (lt :: l) r (by simp at hlen ⊢; omega) p b hmem with ⟨e, he, hep⟩
            exact ⟨e, List.mem_cons_of_mem _ he, hep⟩
        · by_cases hf : (force = true) ∨ File.gt lt rt
          · by_cases hne : lt.relpath ≠ rt.relpath
            · simp only [syncLoop, if_neg hlt, if_pos hf, if_pos hne,
                List.mem_cons] at hmem
              rcases hmem with hmem | hmem
              · exact absurd hmem (by simp)
              · exact ih l (rt :: r) (by simp at hlen ⊢; omega) p b hmem
            · simp only [syncLoop, if_neg hlt, if_pos hf, if_neg hne,
                List.mem_cons] at hmem
              rcases hmem with hmem | hmem
              · exact absurd hmem (by simp)
              · rcases ih l r (by simp at hlen ⊢; omega) p b hmem with ⟨e, he, hep⟩
                exact ⟨e, List.mem_cons_of_mem _ he, hep⟩
          · simp only [syncLoop, if_neg hlt, if_neg hf] at hmem
            rcases ih l r (by simp at hlen ⊢; omega) p b hmem with ⟨e, he, hep⟩
            exact ⟨e, List.mem_cons_of_mem _ he, hep⟩

/-- The loop pops the remote stack from its greatest path downward, so
any later delete names a strictly smaller path than any earlier one. -/
lemma syncLoop_delBefore (force : Bool) :
    ∀ n (L R : List File), L.length + R.length ≤ n →
      List.Pairwise (fun a b => strLt b.relpath a.relpath) R →
      List.Pairwise DelBefore (syncLoop force L R) := by
  intro n
  induction n with
  | zero =>
    intro L R hlen _
    have hL0 : L = [] := List.length_eq_zero.mp (by omega)
    have hR0 : R = [] := List.length_eq_zero.mp (by omega)
    subst hL0; subst hR0
    simp only [syncLoop]
    exact List.Pairwise.nil
  | succ n ih =>
    intro L R hlen hR
    rcases L with _ | ⟨lt, l⟩
    · rcases R with _ | ⟨rt, r⟩
      · simp only [syncLoop]; exact List.Pairwise.nil
      · have hhead := (List.pairwise_cons.mp hR).1
        have hR' := (List.pairwise_cons.mp hR).2
        simp only [syncLoop]
        refine List.Pairwise.cons ?_ (ih [] r (by simp at hlen ⊢; omega) hR')
        intro op hop p q bp bq hp hq
        rcases syncLoop_delete_mem force ([].length + r.length) [] r le_rfl q bq
          (hq ▸ hop) with ⟨e, he, hep⟩
        have hel : strLt e.relpath rt.relpath := hhead e he
        injection hp with h1 _
        rw [hep] at hel
        rw [h1] at hel
        exact hel
    · rcases R with _ | ⟨rt, r⟩
      · simp only [syncLoop]
        refine List.Pairwise.cons ?_ (ih l [] (by simp at hlen ⊢; omega) List.Pairwise.nil)
        intro op hop p q bp bq hp _
        exact absurd hp (by simp)
      · have hhead := (List.pairwise_cons.mp hR).1
        have hR' := (List.pairwise_cons.mp hR).2
        by_cases hlt : strLt lt.relpath rt.relpath
        · simp only [syncLoop, if_pos hlt]
          refine List.Pairwise.cons ?_ (ih (lt :: l) r (by simp at hlen ⊢; omega) hR')
          intro op hop p q bp bq hp hq
          rcases syncLoop_delete_mem force ((lt :: l).length + r.length) (lt :: l) r
            le_rfl q bq (hq ▸ hop) with ⟨e, he, hep⟩
          have hel : strLt e.relpath rt.relpath := hhead e he
          injection hp with h1 _
          rw [hep] at hel
          rw [h1] at hel
          exact hel
        · by_cases hf : (force = true) ∨ File.gt lt rt
          · by_cases hne : lt.relpath ≠ rt.relpath
            · simp only [syncLoop, if_neg hlt, if_pos hf, if_pos hne]
              refine List.Pairwise.cons ?_ (ih l (rt :: r) (by simp at hlen ⊢; omega) hR)
              intro op hop p q bp bq hp _
              exact absurd hp (by simp)
            · simp only [syncLoop, if_neg hlt, if_pos hf, if_neg hne]
              refine List.Pairwise.cons ?_ (ih l r (by simp at hlen ⊢; omega) hR')
              intro op hop p q bp bq hp _
              exact absurd hp (by simp)
          · simp only [syncLoop, if_neg hlt, if_neg hf]
            exact ih l r (by simp at hlen ⊢; omega) hR'

/-! Lemmas about the pathlib suffix model. -/

/-- The final component is a suffix of the path: the leading part is the
reversed dropWhile remainder. -/
lemma pathName_pre (p : String) :
    (p.data.reverse.dropWhile (fun c => c ≠ '/')).reverse ++ pathName p = p.data := by
  unfold pathName
  rw [← List.reverse_append, List.takeWhile_append_dropWhile, List.reverse_reverse]

/-- The computed suffix is empty or a dot-led tail of the final
component. -/
lemma pySuffix_cases (p : String) :
    pySuffix p = "" ∨ ∃ i, 0 < i ∧ i + 1 < (pathName p).length ∧
      (pySuffix p).data = (pathName p).drop i := by
  cases h : rfindIdx '.' (pathName p) with
  | none =>
    left
    simp only [pySuffix, h]
  | some i =>
    by_cases hc : 0 < i ∧ i + 1 < (pathName p).length
    · right
      refine ⟨i, hc.1, hc.2, ?_⟩
      simp only [pySuffix, h, if_pos hc]
    · left
      simp [pySuffix, h, hc]

/-- with_suffix on a path with a nonempty computed suffix: the suffix
chars are cut from the end of the whole path text and the new suffix
appended. -/
lemma pyWithSuffix_eq (p suf : String) (h : (pySuffix p).data ≠ []) :
    pyWithSuffix p suf =
      ⟨p.data.take (p.data.length - (pySuffix p).data.length) ++ suf.data⟩ := by
  rcases pySuffix_cases p with hs | ⟨i, hi0, hilen, hdrop⟩
  · exact absurd (by rw [hs]) h
  · refine String.ext ?_
    simp only [pyWithSuffix, if_neg h]
    obtain ⟨pre, hpre⟩ : ∃ pre, pre ++ pathName p = p.data := ⟨_, pathName_pre p⟩
    have hlen : (pySuffix p).data.length = (pathName p).length - i := by
      rw [hdrop]; exact List.length_drop i (pathName p)
    rw [← hpre, List.length_append]
    rw [show pre.length + (pathName p).length - (pathName p).length = pre.length by omega]
    rw [List.take_left]
    rw [List.take_append_eq_append_take]
    rw [List.take_of_length_le (by omega :
      pre.length ≤ pre.length + (pathName p).length - (pySuffix p).data.length)]
    rw [show pre.length + (pathName p).length - (pySuffix p).data.length - pre.length =
      (pathName p).length - (pySuffix p).data.length by omega]
    rw [List.append_assoc]

/-! Lemmas about the quoting routine. -/

lemma bytesReplace1_append (n : Nat) (r a b : List Nat) :
    bytesReplace1 n r (a ++ b) = bytesReplace1 n r a ++ bytesReplace1 n r b := by
  induction a with
  | nil => rfl
  | cons x xs ih => simp [bytesReplace1, ih]

lemma quoteChain_cons (b : Nat) (s : List Nat) :
    bytesReplace1 96 [92, 96] (bytesReplace1 36 [92, 36] (bytesReplace1 34 [92, 34]
        (bytesReplace1 92 [92, 92] (b :: s)))) =
      escByte b ++
        bytesReplace1 96 [92, 96] (bytesReplace1 36 [92, 36] (bytesReplace1 34 [92, 34]
          (bytesReplace1 92 [92, 92] s))) := by
  have h : bytesReplace1 92 [92, 92] (b :: s) =
      (if b = 92 then [92, 92] else [b]) ++ bytesReplace1 92 [92, 92] s := rfl
  rw [h, bytesReplace1_append, bytesReplace1_append, bytesReplace1_append]
  congr 1
  by_cases h92 : b = 92
  · subst h92; decide
  by_cases h34 : b = 34
  · subst h34; decide
  by_cases h36 : b = 36
  · subst h36; decide
  by_cases h96 : b = 96
  · subst h96; decide
  simp [bytesReplace1, escByte, h92, h34, h36, h96]

lemma quoteChain_eq_escapeAll (s : List Nat) :
    bytesReplace1 96 [92, 96] (bytesReplace1 36 [92, 36] (bytesReplace1 34 [92, 34]
        (bytesReplace1 92 [92, 92] s))) = escapeAll s := by
  induction s with
  | nil => rfl
  | cons b s ih => rw [quoteChain_cons, ih]; rfl

/-! The claims. -/

/-- C7: for every input byte string, QuoteArgument returns the input
wrapped in double quotes with exactly the four bytes backslash, double
quote, dollar and backtick each escaped by a preceding backslash, the
backslash replacement performed first so that escapes inserted by later
replacements are not re-escaped, and no other byte altered. -/
theorem quote_argument_correct (arg : List Nat) :
    QuoteArgument arg = quoteSpec arg := by
  unfold QuoteArgument quoteSpec
  rw [quoteChain_eq_escapeAll]

/-- C4 counterexample: the less-than comparison is not a strict ordering,
a record with any relativePath compares strictly less than itself. -/
theorem record_ordering_counterexample :
    File.lt ⟨"a", 0, 0, none⟩ ⟨"a", 0, 0, none⟩ := by
  decide

/-- C4 (amended): the less-than comparison is primarily lexicographic on
relativePath (a strict path order in either direction decides it); when
the relativePaths are equal it falls back to a one-sided 60-second
tolerant time comparison, a < b iff the mtime of a is below the mtime of
b plus 60, not the symmetric window used by equality; the comparison is
total, so sorting with it orders records by relativePath, but it is not
a strict ordering: every record compares strictly less than itself. -/
theorem record_ordering_amended :
    (∀ a b : File, a.relpath < b.relpath → File.lt a b) ∧
    (∀ a b : File, File.lt a b → ¬ b.relpath < a.relpath) ∧
    (∀ a b : File, a.relpath = b.relpath → (File.lt a b ↔ a.mtime < b.mtime + 60)) ∧
    (∀ a b : File, File.lt a b ∨ File.lt b a) ∧
    (∀ a : File, File.lt a a) := by
  refine ⟨fun a b h => Or.inl ((strLt_iff_lt _ _).mpr h), ?_, ?_, ?_,
    fun a => Or.inr ⟨rfl, by omega⟩⟩
  · intro a b h hba
    rcases h with h | ⟨he, _⟩
    · exact lt_asymm ((strLt_iff_lt _ _).mp h) hba
    · rw [he] at hba; exact lt_irrefl _ hba
  · intro a b he
    constructor
    · rintro (h | ⟨_, hm⟩)
      · rw [strLt_iff_lt, he] at h; exact absurd h (lt_irrefl _)
      · exact hm
    · intro hm; exact Or.inr ⟨he, hm⟩
  · intro a b
    rcases lt_trichotomy a.relpath b.relpath with h | h | h
    · exact Or.inl (Or.inl ((strLt_iff_lt _ _).mpr h))
    · by_cases hm : a.mtime < b.mtime + 60
      · exact Or.inl (Or.inr ⟨h, hm⟩)
      · exact Or.inr (Or.inr ⟨h.symm, by omega⟩)
    · exact Or.inr (Or.inl ((strLt_iff_lt _ _).mpr h))

/-- Witness for the amended C4 theorem at concrete records. -/
theorem record_ordering_amended_witness :
    File.lt ⟨"a", 0, 0, none⟩ ⟨"b", 5, 1, none⟩ :=
  record_ordering_amended.1 ⟨"a", 0, 0, none⟩ ⟨"b", 5, 1, none⟩
    ((strLt_iff_lt "a" "b").mp (by decide))

/-- C5: records with identical relativePath compare equal exactly when
the absolute difference of their mtimes is strictly below 60 seconds; a
45 second difference compares equal, a 75 second difference does not. -/
theorem equality_tolerance :
    (∀ a b : File, a.relpath = b.relpath → (File.eq a b ↔ |a.mtime - b.mtime| < 60)) ∧
    File.eq ⟨"p", 100, 0, none⟩ ⟨"p", 145, 0, none⟩ ∧
    ¬ File.eq ⟨"p", 100, 0, none⟩ ⟨"p", 175, 0, none⟩ := by
  refine ⟨?_, by decide, by decide⟩
  intro a b he
  exact ⟨fun h => h.2, fun h => ⟨he, h⟩⟩

/-- Witness for the C5 theorem at concrete records. -/
theorem equality_tolerance_witness :
    File.eq ⟨"q", 0, 0, none⟩ ⟨"q", 30, 0, none⟩ ↔ |(0 : Int) - 30| < 60 :=
  equality_tolerance.1 ⟨"q", 0, 0, none⟩ ⟨"q", 30, 0, none⟩ rfl

/-- C1: for sorted listings with distinct paths, running the loop to
completion leaves the simulated remote holding exactly the relative path
set of the local listing: remote entries with no local counterpart are
deleted, local entries with no or stale remote counterpart are copied,
and nothing else remains. -/
theorem reconciler_convergence (force : Bool) (loc rem : List File)
    (hl : List.Pairwise (fun a b => strLt a.relpath b.relpath) loc)
    (hr : List.Pairwise (fun a b => strLt a.relpath b.relpath) rem) :
    applyOps (pathSet rem) (reconcile force loc rem) = pathSet loc := by
  have hrd : List.Pairwise (fun a b => strLt b.relpath a.relpath) rem.reverse := by
    rw [List.pairwise_reverse]; exact hr
  have h := syncLoop_pathSet force (loc.reverse.length + rem.reverse.length)
    loc.reverse rem.reverse (pathSet rem.reverse) le_rfl hrd (Finset.Subset.refl _)
  rw [pathSet_reverse, pathSet_reverse, Finset.sdiff_self, Finset.empty_union] at h
  exact h

/-- Witness for C1 on the spec scenario listings. -/
theorem reconciler_convergence_witness :
    applyOps (pathSet [⟨"a.mp3", 100, 33188, none⟩, ⟨"c.mp3", 10, 33188, none⟩])
      (reconcile false
        [⟨"a.mp3", 100, 33188, some "/m/a.mp3"⟩, ⟨"b", 40, 16877, some "/m/b"⟩,
          ⟨"b/cover.jpg", 50, 33188, some "/m/b/cover.jpg"⟩]
        [⟨"a.mp3", 100, 33188, none⟩, ⟨"c.mp3", 10, 33188, none⟩]) =
    pathSet [⟨"a.mp3", 100, 33188, some "/m/a.mp3"⟩, ⟨"b", 40, 16877, some "/m/b"⟩,
      ⟨"b/cover.jpg", 50, 33188, some "/m/b/cover.jpg"⟩] :=
  reconciler_convergence false _ _ (by decide) (by decide)

/-- C8: every branch of the reconciliation loop pops at least one stack
element, so the combined stack length strictly decreases and the loop
terminates after at most len(local) + len(remote) iterations for every
pair of input listings. -/
theorem reconcile_termination_bound (force : Bool) (loc rem : List File) :
    reconcileIters force loc rem ≤ loc.length + rem.length := by
  have h := syncIters_le force (loc.reverse.length + rem.reverse.length)
    loc.reverse rem.reverse le_rfl
  simpa [reconcileIters] using h

/-- C6: on identical listings (pairwise equal paths with times inside
the 60 second tolerance), a forced run copies each local entry exactly
once and deletes nothing, and an unforced run performs no operation. -/
theorem force_update_behavior (loc rem : List File)
    (h : List.Forall₂ (fun a b => a.relpath = b.relpath ∧ |a.mtime - b.mtime| < 60)
      loc rem) :
    reconcile true loc rem = loc.reverse.map Op.copy ∧ reconcile false loc rem = [] := by
  have hrev := List.forall₂_reverse_iff.mpr h
  constructor
  · exact syncLoop_matched_force _ _ hrev
  · exact syncLoop_matched_noop _ _
      (hrev.imp fun a b hab => ⟨hab.1, by have := abs_lt.mp hab.2; omega⟩)

/-- Witness for C6 at a concrete matched pair of listings. -/
theorem force_update_behavior_witness :
    reconcile true [⟨"x", 100, 1, some "/m/x"⟩] [⟨"x", 120, 1, none⟩] =
      ([⟨"x", 100, 1, some "/m/x"⟩] : List File).reverse.map Op.copy ∧
    reconcile false [⟨"x", 100, 1, some "/m/x"⟩] [⟨"x", 120, 1, none⟩] = [] :=
  force_update_behavior _ _ (List.Forall₂.cons ⟨rfl, by decide⟩ List.Forall₂.nil)

/-- C3: with force off, a second run with the same local listing against
the simulated remote state left by a first run performs zero copy and
zero delete operations. -/
theorem reconciler_idempotence (loc rem : List File)
    (hl : List.Pairwise (fun a b => strLt a.relpath b.relpath) loc)
    (hr : List.Pairwise (fun a b => strLt a.relpath b.relpath) rem) :
    reconcile false loc (finalRemote false loc rem) = [] := by
  unfold reconcile finalRemote
  rw [List.reverse_reverse]
  exact syncLoop_matched_noop _ _
    (runRemote_forall₂ (loc.reverse.length + rem.reverse.length)
      loc.reverse rem.reverse le_rfl)

/-- Witness for C3 at a concrete pair of listings. -/
theorem reconciler_idempotence_witness :
    reconcile false [⟨"a", 100, 1, some "/m/a"⟩, ⟨"b", 10, 1, some "/m/b"⟩]
      (finalRemote false [⟨"a", 100, 1, some "/m/a"⟩, ⟨"b", 10, 1, some "/m/b"⟩]
        [⟨"b", 200, 1, none⟩, ⟨"c", 5, 1, none⟩]) = [] :=
  reconciler_idempotence _ _ (by decide) (by decide)

/-- C2: for a sorted remote listing containing a directory at path D and
a descendant at path D/x that are both absent from the local listing,
the emitted operation sequence never issues the directory delete of D
before a delete of D/x: any delete of D comes strictly after any delete
of D/x, since the loop processes paths in descending order and
descendants sort after their directory. -/
theorem deletion_ordering (force : Bool) (loc rem : List File)
    (hr : List.Pairwise (fun a b => strLt a.relpath b.relpath) rem)
    (D x : String) (dD dX : File)
    (hdD : dD ∈ rem) (hdDp : dD.relpath = D) (hdir : S_ISDIR dD.mode = true)
    (hdX : dX ∈ rem) (hdXp : dX.relpath = D ++ "/" ++ x)
    (habsD : D ∉ pathSet loc) (habsX : D ++ "/" ++ x ∉ pathSet loc)
    (i j : Nat) (bx : Bool)
    (hopi : (reconcile force loc rem).get? i = some (Op.delete D true))
    (hopj : (reconcile force loc rem).get? j = some (Op.delete (D ++ "/" ++ x) bx)) :
    j < i := by
  have hDlt : strLt D (D ++ "/" ++ x) := strLt_slash_append D x
  have hrd : List.Pairwise (fun a b => strLt b.relpath a.relpath) rem.reverse := by
    rw [List.pairwise_reverse]; exact hr
  have hpw := syncLoop_delBefore force (loc.reverse.length + rem.reverse.length)
    loc.reverse rem.reverse le_rfl hrd
  unfold reconcile at hopi hopj
  rcases List.get?_eq_some.mp hopi with ⟨hi, hgi⟩
  rcases List.get?_eq_some.mp hopj with ⟨hj, hgj⟩
  rcases lt_trichotomy i j with hij | hij | hij
  · exfalso
    have hdb := List.pairwise_iff_get.mp hpw ⟨i, hi⟩ ⟨j, hj⟩ hij
    have hlt := hdb D (D ++ "/" ++ x) true bx hgi hgj
    exact strLt_irrefl D (strLt_trans hDlt hlt)
  · exfalso
    subst hij
    have h2 : Op.delete D true = Op.delete (D ++ "/" ++ x) bx := hgi.symm.trans hgj
    injection h2 with h3 _
    exact ne_of_strLt hDlt h3
  · exact hij

/-- Witness for C2 on a concrete two entry remote listing. -/
theorem deletion_ordering_witness : (0 : Nat) < 1 := by
  have hops : reconcile false ([] : List File)
      [⟨"d", 0, 16877, none⟩, ⟨"d/x", 5, 33188, none⟩] =
      [Op.delete "d/x" false, Op.delete "d" true] := by
    simp [reconcile, syncLoop, S_ISDIR]
    decide
  exact deletion_ordering false [] [⟨"d", 0, 16877, none⟩, ⟨"d/x", 5, 33188, none⟩]
    (by decide) "d" "x" ⟨"d", 0, 16877, none⟩ ⟨"d/x", 5, 33188, none⟩
    (by decide) rfl (by decide) (by decide) (by decide) (by decide) (by decide)
    1 0 false (by rw [hops]; decide) (by rw [hops]; decide)

/-- C9: with transcoding enabled, a required path whose pathlib suffix is
.flac produces a record whose relativePath is the path with the five
suffix chars replaced by a dot and the target format, while sourcePath
still names the original file under the music root and the stat fields
pass through unchanged; a path with any other suffix keeps its
relativePath unchanged. -/
theorem transcode_naming (fmt root p : String) (m : Int) (md : Nat)
    (hfmt : fmt = "mp3") :
    (pySuffix p = ".flac" →
      mkLocalFile true fmt root p m md =
        ⟨⟨p.data.take (p.data.length - 5) ++ ('.' :: fmt.data)⟩, m, md,
          some (root ++ "/" ++ p)⟩) ∧
    (pySuffix p ≠ ".flac" →
      mkLocalFile true fmt root p m md = ⟨p, m, md, some (root ++ "/" ++ p)⟩) := by
  constructor
  · intro h
    have hdata : (pySuffix p).data = ".flac".data := by rw [h]
    have hne : (pySuffix p).data ≠ [] := by rw [hdata]; decide
    have hsufl : (pySuffix p).data.length = 5 := by rw [hdata]; rfl
    simp only [mkLocalFile,
      if_pos (⟨rfl, by simp [h]⟩ : (true = true) ∧ pySuffix p ∈ [".flac"])]
    rw [pyWithSuffix_eq p ("." ++ fmt) hne, hsufl, String.data_append,
      show ("." : String).data = ['.'] from rfl]
    simp [h]
  · intro h
    simp [mkLocalFile, h]

/-- Witness for C9 at a concrete flac path. -/
theorem transcode_naming_witness :
    mkLocalFile true "mp3" "/m" "a/b.flac" 7 33188 =
      ⟨⟨"a/b.flac".data.take ("a/b.flac".data.length - 5) ++ ('.' :: "mp3".data)⟩,
        7, 33188, some ("/m" ++ "/" ++ "a/b.flac")⟩ :=
  (transcode_naming "mp3" "/m" "a/b.flac" 7 33188 rfl).1 (by decide)

/-- C10 (implicit): record equality and ordering read only relativePath
and modTime, never mode or sourcePath; consequently when the remote top
holds a directory and the local top a regular file at the same path with
modification times inside the 60 second window, the two records compare
equal and the loop pops both without emitting any operation for that
path, so the type mismatch is never repaired. -/
theorem type_mismatch_ignored (lt rt : File) (l r : List File)
    (hp : lt.relpath = rt.relpath) (hm : |lt.mtime - rt.mtime| < 60)
    (hdir : S_ISDIR rt.mode = true) (hfile : S_ISDIR lt.mode = false) :
    (∀ (a b : File) (m : Nat) (s : Option String),
      (File.eq ⟨a.relpath, a.mtime, m, s⟩ b ↔ File.eq a b) ∧
      (File.lt ⟨a.relpath, a.mtime, m, s⟩ b ↔ File.lt a b) ∧
      (File.gt ⟨a.relpath, a.mtime, m, s⟩ b ↔ File.gt a b) ∧
      (File.eq b ⟨a.relpath, a.mtime, m, s⟩ ↔ File.eq b a) ∧
      (File.lt b ⟨a.relpath, a.mtime, m, s⟩ ↔ File.lt b a) ∧
      (File.gt b ⟨a.relpath, a.mtime, m, s⟩ ↔ File.gt b a)) ∧
    File.eq lt rt ∧
    syncLoop false (lt :: l) (rt :: r) = syncLoop false l r := by
  refine ⟨fun a b m s => ⟨Iff.rfl, Iff.rfl, Iff.rfl, Iff.rfl, Iff.rfl, Iff.rfl⟩,
    ⟨hp, hm⟩, ?_⟩
  have hnlt : ¬ strLt lt.relpath rt.relpath := by rw [hp]; exact strLt_irrefl _
  have hngt : ¬ ((false = true) ∨ File.gt lt rt) := by
    rintro (hx | hx)
    · exact absurd hx (by simp)
    · exact hx.2 ⟨hp, hm⟩
  simp only [syncLoop, if_neg hnlt, if_neg hngt]

/-- Witness for C10 at a concrete file and directory pair. -/
theorem type_mismatch_ignored_witness :
    syncLoop false [⟨"p", 100, 33188, some "/m/p"⟩] [⟨"p", 70, 16877, none⟩] =
      syncLoop false [] [] :=
  (type_mismatch_ignored ⟨"p", 100, 33188, some "/m/p"⟩ ⟨"p", 70, 16877, none⟩ [] []
    rfl (by decide) (by decide) (by decide)).2.2

end PlaylistSync
